import Mathlib

/-!
Verification of the tinynn scalar reverse-mode autodiff engine (`src/engine.py`).

The Python `Variable` objects form a mutable object graph; we embed it as an
arena: a `State` holds the list of all allocated nodes, and a `NodeId` (the
allocation index) models Python object identity.  Each operation
(`__add__`, `__sub__`, `__mul__`, `__pow__`, `relu`, `tanh`) appends exactly
the node the Python code constructs.  The stored `_backward` closure of a node
captures concrete object references (`self`, `other`, `out`); we embed it as
the tagged value `BackRule` recording exactly those captured ids (plus the
captured `exponent` for `pow`), and `runBackward` performs, statement by
statement, the gradient writes the corresponding Python closure performs.
Scalar values are modelled as `ℚ`; the `pow` exponent as `ℤ` (zpow); the
transcendental `np.tanh` is abstracted as an arbitrary function parameter.
-/

namespace Tinynn

/-- Object identity of a `Variable`: its allocation index in the arena. -/
abbrev NodeId := Nat

/-- The `_backward` closure stored on a node, tagged by the operation that
created it and recording the node ids (and exponent) the Python closure
captures.  `none` is the default `lambda: None` set in `__init__` (leaves,
and `tanh`, which never replaces it). -/
inductive BackRule where
  | none : BackRule
  | add (self other out : NodeId) : BackRule
  | sub (self other out : NodeId) : BackRule
  | mul (self other out : NodeId) : BackRule
  | pow (self : NodeId) (exponent : ℤ) (out : NodeId) : BackRule
  | relu (self : NodeId) (out : NodeId) : BackRule
deriving DecidableEq

/-- One `Variable` record: fields `data`, `label`, `grad`, `_op`, `_prev`,
`_backward` of the Python class (underscores dropped; `_backward` is named
`backward_rule` so the method name `backward` stays free). -/
structure Variable where
  data : ℚ
  label : String
  grad : ℚ
  op : String
  prev : List NodeId
  backward_rule : BackRule
deriving DecidableEq

instance : Inhabited Variable := ⟨⟨0, "", 0, "", [], BackRule.none⟩⟩

/-- The arena of all allocated nodes; a Python heap restricted to this graph. -/
structure State where
  nodes : List Variable
deriving DecidableEq

def State.size (st : State) : Nat := st.nodes.length

def State.get (st : State) (i : NodeId) : Variable := st.nodes.getD i default

def State.setNode (st : State) (i : NodeId) (n : Variable) : State := ⟨st.nodes.set i n⟩

/-- Overwrite `node.grad = g`. -/
def State.setGrad (st : State) (i : NodeId) (g : ℚ) : State :=
  st.setNode i { st.get i with grad := g }

/-- Accumulate `node.grad += g`. -/
def State.addGrad (st : State) (i : NodeId) (g : ℚ) : State :=
  st.setGrad i ((st.get i).grad + g)

/-- Allocate one node at the end of the arena (how every `Variable(...)`
construction extends the heap). -/
def State.pushNode (st : State) (n : Variable) : State := ⟨st.nodes ++ [n]⟩

/-- `Variable.__init__`: allocate a fresh node; `_backward` defaults to the
no-op closure. Returns the new state and the new node's identity. -/
def Variable.init (st : State) (d : ℚ) (label : String) (g : ℚ) (op : String)
    (prev : List NodeId) : State × NodeId :=
  (st.pushNode ⟨d, label, g, op, prev, BackRule.none⟩, st.size)

/-- A second operand of a binary op: either an existing node or a raw scalar
(to be lifted). -/
inductive Operand where
  | node (i : NodeId)
  | scalar (x : ℚ)

/-- The lifting line `other = other if isinstance(other, Variable) else
Variable(other, f'...')` shared by `__add__`, `__sub__`, `__mul__`. -/
def lift (st : State) (o : Operand) : State × NodeId :=
  match o with
  | .node i => (st, i)
  | .scalar x => Variable.init st x (toString x) 0 "" []

/-- `Variable.__add__`: lift `other`, allocate
`Variable(self.data + other.data, grad=0, _op='+', _prev=(self, other))`,
then store the add closure. -/
def Variable.add (st : State) (a : NodeId) (b : Operand) : State × NodeId :=
  let r := lift st b
  let st1 := r.1
  let o := r.2
  let outId := st1.size
  (st1.pushNode ⟨(st1.get a).data + (st1.get o).data, "", 0, "+", [a, o],
      BackRule.add a o outId⟩, outId)

/-- `Variable.__sub__` (note: the Python passes `label=self.label`). -/
def Variable.sub (st : State) (a : NodeId) (b : Operand) : State × NodeId :=
  let r := lift st b
  let st1 := r.1
  let o := r.2
  let outId := st1.size
  (st1.pushNode ⟨(st1.get a).data - (st1.get o).data, (st1.get a).label, 0, "-", [a, o],
      BackRule.sub a o outId⟩, outId)

/-- `Variable.__mul__` (the locally computed f-string label is unused;
the Python passes `label=self.label`). -/
def Variable.mul (st : State) (a : NodeId) (b : Operand) : State × NodeId :=
  let r := lift st b
  let st1 := r.1
  let o := r.2
  let outId := st1.size
  (st1.pushNode ⟨(st1.get a).data * (st1.get o).data, (st1.get a).label, 0, "*", [a, o],
      BackRule.mul a o outId⟩, outId)

/-- `Variable.__pow__`: the exponent is a plain constant, not a node; no node
is allocated for it and the output's only parent is `self`. -/
def Variable.pow (st : State) (a : NodeId) (e : ℤ) : State × NodeId :=
  (st.pushNode ⟨(st.get a).data ^ e, (st.get a).label, 0, "pow", [a],
      BackRule.pow a e st.size⟩, st.size)

/-- `Variable.relu`: forward value `max(0, self.data)`. -/
def Variable.relu (st : State) (a : NodeId) : State × NodeId :=
  (st.pushNode ⟨max 0 (st.get a).data, (st.get a).label, 0, "relu", [a],
      BackRule.relu a st.size⟩, st.size)

/-- `Variable.tanh`: forward value `np.tanh(self.data)` (the transcendental
function is abstracted as the parameter `f`).  The Python method returns the
freshly constructed `Variable` directly and never assigns `_backward`, so the
rule stays the default no-op `BackRule.none`. -/
def Variable.tanh (f : ℚ → ℚ) (st : State) (a : NodeId) : State × NodeId :=
  (st.pushNode ⟨f (st.get a).data, (st.get a).label, 0, "tanh", [a],
      BackRule.none⟩, st.size)

/-- `Variable.zero_grad`: set one node's gradient to 0. -/
def Variable.zero_grad (st : State) (i : NodeId) : State := st.setGrad i 0

/-- Invoke one stored `_backward` closure: the exact sequence of gradient
reads and writes the Python closure performs, threaded through the state in
statement order. -/
def runBackward (st : State) (r : BackRule) : State :=
  match r with
  | .none => st
  | .add s o out =>
      let st1 := st.addGrad s ((st.get out).grad)
      st1.addGrad o ((st1.get out).grad)
  | .sub s o out =>
      let st1 := st.addGrad s ((st.get out).grad)
      st1.addGrad o ((-1) * ((st1.get out).grad))
  | .mul s o out =>
      let st1 := st.addGrad s ((st.get out).grad * (st.get o).data)
      st1.addGrad o ((st1.get out).grad * (st1.get s).data)
  | .pow s e out =>
      st.addGrad s ((st.get out).grad * (e : ℚ) * ((st.get s).data ^ (e - 1)))
  | .relu s out =>
      if (st.get s).data ≤ 0 then st.addGrad s 0
      else st.addGrad s ((st.get out).grad)

/-- The two mutable locals of `Variable.backward`: the `visited` set (a Python
`set` keyed on object identity, i.e. on `NodeId`) and the `topo` output list. -/
structure TopoState where
  visited : List NodeId
  topo : List NodeId
deriving DecidableEq

/-- The inner recursive `build_topo` of `Variable.backward`, with explicit
fuel (the driver passes `st.size`, enough for any well-formed arena): if `v`
is unvisited, mark it, recurse into `v._prev` left to right, then append `v`
to `topo`. -/
def build_topo (st : State) : Nat → NodeId → TopoState → TopoState
  | 0, _, ts => ts
  | fuel+1, v, ts =>
      if v ∈ ts.visited then ts
      else
        let ts2 := ((st.get v).prev).foldl (fun acc c => build_topo st fuel c acc)
          ⟨v :: ts.visited, ts.topo⟩
        ⟨ts2.visited, ts2.topo ++ [v]⟩

/-- The topological order `Variable.backward` computes: `build_topo(self)`
starting from empty `visited` and `topo`. -/
def topoOf (st : State) (root : NodeId) : List NodeId :=
  (build_topo st st.size root ⟨[], []⟩).topo

/-- The driver loop `for v in reversed(topo): v._backward()`, reading each
node's stored closure from the current state. -/
def applyRules (st : State) (l : List NodeId) : State :=
  l.foldl (fun s v => runBackward s ((s.get v).backward_rule)) st

/-- `Variable.backward`: build the topological order, seed `self.grad = 1`
(an unconditional overwrite), then invoke the stored closures in reverse
topological order. -/
def Variable.backward (st : State) (root : NodeId) : State :=
  applyRules (st.setGrad root 1) (topoOf st root).reverse

/-- Arena well-formedness: every parent reference points to an earlier
allocation.  Every state built bottom-up through the API has this shape, and
it is what makes the parent graph acyclic. -/
def WF (st : State) : Prop :=
  ∀ i, i < st.size → ∀ p ∈ (st.get i).prev, p < i

/-- A stored closure only writes gradients of the node's own parents
(true of every closure the engine installs). -/
def rule_okb (n : Variable) : Bool :=
  match n.backward_rule with
  | .none => true
  | .add s o _ => decide (s ∈ n.prev) && decide (o ∈ n.prev)
  | .sub s o _ => decide (s ∈ n.prev) && decide (o ∈ n.prev)
  | .mul s o _ => decide (s ∈ n.prev) && decide (o ∈ n.prev)
  | .pow s _ _ => decide (s ∈ n.prev)
  | .relu s _ => decide (s ∈ n.prev)

/-- Every node's stored closure writes only into its own parents. -/
def RulesWF (st : State) : Prop :=
  ∀ i, i < st.size → rule_okb (st.get i) = true

instance (st : State) : Decidable (WF st) :=
  inferInstanceAs (Decidable (∀ i, i < st.size → ∀ p ∈ (st.get i).prev, p < i))

instance (st : State) : Decidable (RulesWF st) :=
  inferInstanceAs (Decidable (∀ i, i < st.size → rule_okb (st.get i) = true))

/-- Two arenas agree on everything except possibly gradients: same number of
nodes and, node by node, the same `data`, `label`, `_op`, `_prev` and stored
backward rule. -/
def sameShape (s t : State) : Prop :=
  s.size = t.size ∧ ∀ j, (s.get j).data = (t.get j).data ∧
    (s.get j).label = (t.get j).label ∧ (s.get j).op = (t.get j).op ∧
    (s.get j).prev = (t.get j).prev ∧
    (s.get j).backward_rule = (t.get j).backward_rule

/-- `Reachable st root v`: `v` is reached from `root` by following `_prev`
references (the node set `build_topo` is specified to traverse). -/
inductive Reachable (st : State) (root : NodeId) : NodeId → Prop where
  | refl : Reachable st root root
  | step {u p : NodeId} : Reachable st root u → p ∈ (st.get u).prev →
      Reachable st root p

/-- Invariant bundle on the mutable locals of `build_topo`, relative to the
list `P` of nodes currently on the recursion path (entered but not yet
appended): the visited set is exactly the emitted nodes plus the path; the
emitted list has no duplicates, is closed under parents, never emits a
parent after its child, and contains only ids inside the arena. -/
structure TopoGood (st : State) (P : List NodeId) (ts : TopoState) : Prop where
  inv : ∀ x, x ∈ ts.visited ↔ (x ∈ ts.topo ∨ x ∈ P)
  nodup : ts.topo.Nodup
  closed : ∀ x ∈ ts.topo, ∀ p ∈ (st.get x).prev, p ∈ ts.topo
  sorted : ts.topo.Pairwise (fun a b => b ∉ (st.get a).prev)
  bounded : ∀ x ∈ ts.topo, x < st.size

/-- What one complete `build_topo st fuel v` call guarantees, from `ts`
to `ts'`. -/
structure TopoStep (st : State) (v : NodeId) (P : List NodeId)
    (ts ts' : TopoState) : Prop where
  good : TopoGood st P ts'
  mono : ∀ x ∈ ts.visited, x ∈ ts'.visited
  ext : ∃ d, ts'.topo = ts.topo ++ d
  entered : v ∈ ts'.visited
  fresh : ∀ x ∈ ts'.topo, x ∈ ts.topo ∨ x ∉ ts.visited
  sound : ∀ x ∈ ts'.topo, x ∈ ts.topo ∨ Reachable st v x

/-- What the fold of `build_topo` over the parent list `l` guarantees. -/
structure TopoFold (st : State) (l : List NodeId) (P : List NodeId)
    (ts ts' : TopoState) : Prop where
  good : TopoGood st P ts'
  mono : ∀ x ∈ ts.visited, x ∈ ts'.visited
  ext : ∃ d, ts'.topo = ts.topo ++ d
  entered : ∀ c ∈ l, c ∈ ts'.visited
  fresh : ∀ x ∈ ts'.topo, x ∈ ts.topo ∨ x ∉ ts.visited
  sound : ∀ x ∈ ts'.topo, x ∈ ts.topo ∨ ∃ c ∈ l, Reachable st c x

/-! Concrete graph families used by the testable-property claims.  Each
`...Graph` definition builds the graph through the engine API exactly as the
spec's scenario describes; the matching `...St` definition is the resulting
arena spelled out (each pair is proved equal by `rfl` inside the theorems
that use it). -/

/-- The additive fan-out scenario `c = a + b`, `d = c + a` built through the
API: node ids are `a = 0`, `b = 1`, `c = 2`, `d = 3`. -/
def fanoutGraph (da db : ℚ) : State × NodeId :=
  let r1 := Variable.init ⟨[]⟩ da "a" 0 "" []
  let r2 := Variable.init r1.1 db "b" 0 "" []
  let r3 := Variable.add r2.1 r1.2 (.node r2.2)
  let r4 := Variable.add r3.1 r3.2 (.node r1.2)
  (r4.1, r4.2)

/-- The arena `fanoutGraph` builds, spelled out. -/
def fanoutSt (da db : ℚ) : State :=
  ⟨[⟨da, "a", 0, "", [], BackRule.none⟩,
    ⟨db, "b", 0, "", [], BackRule.none⟩,
    ⟨da + db, "", 0, "+", [0, 1], BackRule.add 0 1 2⟩,
    ⟨(da + db) + da, "", 0, "+", [2, 0], BackRule.add 2 0 3⟩]⟩

/-- The product scenario `c = a * b` built through the API, with the two leaf
gradients left as parameters (`ga = gb = 0` is the fresh case): ids
`a = 0`, `b = 1`, `c = 2`. -/
def mulGraph (da db ga gb : ℚ) : State × NodeId :=
  let r1 := Variable.init ⟨[]⟩ da "a" ga "" []
  let r2 := Variable.init r1.1 db "b" gb "" []
  Variable.mul r2.1 r1.2 (.node r2.2)

/-- The arena `mulGraph` builds, spelled out (with the root gradient also a
parameter, `gc = 0` when freshly built, so that the state after a backward
pass is again of this shape). -/
def mulSt (da db ga gb gc : ℚ) : State :=
  ⟨[⟨da, "a", ga, "", [], BackRule.none⟩,
    ⟨db, "b", gb, "", [], BackRule.none⟩,
    ⟨da * db, "a", gc, "*", [0, 1], BackRule.mul 0 1 2⟩]⟩

/-- The power scenario `y = x ** k` built through the API: ids `x = 0`,
`y = 1`. -/
def powGraph (dx gx : ℚ) (k : ℤ) : State × NodeId :=
  let r1 := Variable.init ⟨[]⟩ dx "x" gx "" []
  Variable.pow r1.1 r1.2 k

/-- The arena `powGraph` builds, spelled out. -/
def powSt (dx gx : ℚ) (k : ℤ) : State :=
  ⟨[⟨dx, "x", gx, "", [], BackRule.none⟩,
    ⟨dx ^ k, "x", 0, "pow", [0], BackRule.pow 0 k 1⟩]⟩

/-- The rectified-linear scenario `y = relu(x)` built through the API: ids
`x = 0`, `y = 1`. -/
def reluGraph (dx gx : ℚ) : State × NodeId :=
  let r1 := Variable.init ⟨[]⟩ dx "x" gx "" []
  Variable.relu r1.1 r1.2

/-- The arena `reluGraph` builds, spelled out. -/
def reluSt (dx gx : ℚ) : State :=
  ⟨[⟨dx, "x", gx, "", [], BackRule.none⟩,
    ⟨max 0 dx, "x", 0, "relu", [0], BackRule.relu 0 1⟩]⟩

/-- The hyperbolic-tangent scenario `y = tanh(x)` built through the API (the
forward function abstracting `np.tanh` is the parameter `f`): ids `x = 0`,
`y = 1`. -/
def tanhGraph (f : ℚ → ℚ) (dx : ℚ) : State × NodeId :=
  let r1 := Variable.init ⟨[]⟩ dx "x" 0 "" []
  Variable.tanh f r1.1 r1.2

/-- The arena `tanhGraph` builds, spelled out. -/
def tanhSt (f : ℚ → ℚ) (dx : ℚ) : State :=
  ⟨[⟨dx, "x", 0, "", [], BackRule.none⟩,
    ⟨f dx, "x", 0, "tanh", [0], BackRule.none⟩]⟩

/-- A one-node arena used to instantiate universally quantified theorems. -/
def oneSt : State := ⟨[⟨5, "x", 0, "", [], BackRule.none⟩]⟩

/-! Helper lemmas about allocation. -/

theorem size_push (st : State) (n : Variable) :
    (st.pushNode n).size = st.size + 1 := by
  simp [State.size, State.pushNode]

theorem get_push_lt (st : State) (n : Variable) (j : NodeId) (h : j < st.size) :
    (st.pushNode n).get j = st.get j := by
  simp only [State.get, State.size, State.pushNode] at *
  rw [List.getD_append _ _ _ _ h]

theorem get_push_self (st : State) (n : Variable) :
    (st.pushNode n).get st.size = n := by
  simp only [State.get, State.size, State.pushNode]
  rw [List.getD_append_right _ _ _ _ (Nat.le_refl _)]
  simp

/-- C5: additive fan-out: building `c = a + b` then `d = c + a` through the
engine (any leaf data, fresh zero gradients) and calling `backward(d)` yields
`a.gradient = 2`, `b.gradient = 1`, `c.gradient = 1`, `d.gradient = 1`: the
add rule hands the child gradient unchanged to both parents and the two paths
into `a` sum. -/
theorem C5_additive_fanout (da db : ℚ) :
    fanoutGraph da db = (fanoutSt da db, 3) ∧
    ((Variable.backward (fanoutSt da db) 3).get 0).grad = 2 ∧
    ((Variable.backward (fanoutSt da db) 3).get 1).grad = 1 ∧
    ((Variable.backward (fanoutSt da db) 3).get 2).grad = 1 ∧
    ((Variable.backward (fanoutSt da db) 3).get 3).grad = 1 := by
  refine ⟨rfl, ?_, ?_, ?_, ?_⟩
  · have h : (0:ℚ) + 1 + 1 = 2 := by norm_num
    with_unfolding_all exact h
  · have h : (0:ℚ) + 1 = 1 := by norm_num
    with_unfolding_all exact h
  · have h : (0:ℚ) + 1 = 1 := by norm_num
    with_unfolding_all exact h
  · have h : (1:ℚ) = 1 := rfl
    with_unfolding_all exact h

/-- C6: product rule: `c = a * b` gives `c.data = a.data * b.data`, and the
backward pass adds `out.grad * b.data` into `a.grad` and `out.grad * a.data`
into `b.grad` (stated with arbitrary pre-existing leaf gradients `ga`, `gb`;
the seeded child gradient is 1); in particular with `a.data = 3`,
`b.data = 4` and fresh zero gradients, `a.grad = 4`, `b.grad = 3`,
`c.grad = 1`. -/
theorem C6_product_rule :
    (∀ da db ga gb : ℚ,
      mulGraph da db ga gb = (mulSt da db ga gb 0, 2) ∧
      ((mulSt da db ga gb 0).get 2).data = da * db ∧
      ((Variable.backward (mulSt da db ga gb 0) 2).get 0).grad = ga + 1 * db ∧
      ((Variable.backward (mulSt da db ga gb 0) 2).get 1).grad = gb + 1 * da) ∧
    ((Variable.backward (mulSt 3 4 0 0 0) 2).get 0).grad = 4 ∧
    ((Variable.backward (mulSt 3 4 0 0 0) 2).get 1).grad = 3 ∧
    ((Variable.backward (mulSt 3 4 0 0 0) 2).get 2).grad = 1 := by
  refine ⟨fun da db ga gb => ⟨rfl, rfl, ?_, ?_⟩, ?_, ?_, ?_⟩
  · have h : ga + 1 * db = ga + 1 * db := rfl
    with_unfolding_all exact h
  · have h : gb + 1 * da = gb + 1 * da := rfl
    with_unfolding_all exact h
  · with_unfolding_all rfl
  · with_unfolding_all rfl
  · with_unfolding_all rfl

/-- C7: power rule: `y = x ** k` has value `x.data ^ k`, single parent
`(x,)`, allocates no node for the exponent (the arena has exactly the two
nodes `x` and `y`, so the exponent can never accumulate a gradient), and the
backward pass adds `out.grad * k * x.data ^ (k - 1)` into `x.grad`; in
particular `x.data = 2`, `k = 3`, fresh gradients give `x.grad = 12`. -/
theorem C7_power_rule :
    (∀ (dx gx : ℚ) (k : ℤ),
      powGraph dx gx k = (powSt dx gx k, 1) ∧
      ((powSt dx gx k).get 1).data = dx ^ k ∧
      ((powSt dx gx k).get 1).prev = [0] ∧
      (powSt dx gx k).size = 2 ∧
      ((Variable.backward (powSt dx gx k) 1).get 0).grad
        = gx + (k : ℚ) * dx ^ (k - 1)) ∧
    ((Variable.backward (powSt 2 0 3) 1).get 0).grad = 12 := by
  refine ⟨fun dx gx k => ⟨rfl, rfl, rfl, rfl, ?_⟩, ?_⟩
  · have h : gx + 1 * (k : ℚ) * dx ^ (k - 1) = gx + (k : ℚ) * dx ^ (k - 1) := by
      ring
    with_unfolding_all exact h
  · with_unfolding_all rfl

/-- C8: relu: `y = relu(x)` has value `max 0 x.data`; the backward pass
contributes nothing to `x.grad` when `x.data ≤ 0` (including exactly 0) and
adds `out.grad` otherwise; in particular `x.data = -5` gives `x.grad = 0`
and `x.data = 5` gives `x.grad = 1`. -/
theorem C8_relu :
    (∀ dx gx : ℚ,
      reluGraph dx gx = (reluSt dx gx, 1) ∧
      ((reluSt dx gx).get 1).data = max 0 dx ∧
      ((Variable.backward (reluSt dx gx) 1).get 0).grad
        = (if dx ≤ 0 then gx else gx + 1)) ∧
    ((Variable.backward (reluSt (-5) 0) 1).get 0).grad = 0 ∧
    ((Variable.backward (reluSt 5 0) 1).get 0).grad = 1 := by
  refine ⟨fun dx gx => ⟨rfl, rfl, ?_⟩, ?_, ?_⟩
  · show ((runBackward
        (if dx ≤ 0 then ((reluSt dx gx).setGrad 1 1).addGrad 0 0
         else ((reluSt dx gx).setGrad 1 1).addGrad 0
           ((((reluSt dx gx).setGrad 1 1).get 1).grad))
        (((if dx ≤ 0 then ((reluSt dx gx).setGrad 1 1).addGrad 0 0
         else ((reluSt dx gx).setGrad 1 1).addGrad 0
           ((((reluSt dx gx).setGrad 1 1).get 1).grad)).get 0).backward_rule)).get
          0).grad
        = if dx ≤ 0 then gx else gx + 1
    rcases le_or_lt dx 0 with h | h
    · simp only [if_pos h]
      have hq : gx + 0 = gx := by norm_num
      with_unfolding_all exact hq
    · simp only [if_neg (not_le.mpr h)]
      have hq : gx + 1 = gx + 1 := rfl
      with_unfolding_all exact hq
  · with_unfolding_all rfl
  · with_unfolding_all rfl

/-- C4: `tanh(a)` produces a node whose value is the tanh of `a.data` (the
transcendental forward function abstracted as `f`), whose parent tuple is
`(a,)`, and whose stored backward rule is the default no-op, so invoking it
changes nothing; in consequence a backward pass over the graph
`y = tanh(x)` leaves `x.grad = 0` while the seed sets `y.grad = 1`:
gradient does not flow through tanh. -/
theorem C4_tanh_no_gradient (f : ℚ → ℚ) (dx : ℚ) :
    tanhGraph f dx = (tanhSt f dx, 1) ∧
    ((tanhSt f dx).get 1).data = f dx ∧
    ((tanhSt f dx).get 1).prev = [0] ∧
    ((tanhSt f dx).get 1).op = "tanh" ∧
    ((tanhSt f dx).get 1).backward_rule = BackRule.none ∧
    (∀ s : State, runBackward s BackRule.none = s) ∧
    ((Variable.backward (tanhSt f dx) 1).get 0).grad = 0 ∧
    ((Variable.backward (tanhSt f dx) 1).get 1).grad = 1 := by
  refine ⟨rfl, rfl, rfl, rfl, rfl, fun s => rfl, ?_, ?_⟩
  · have h : (0:ℚ) = 0 := rfl
    with_unfolding_all exact h
  · have h : (1:ℚ) = 1 := rfl
    with_unfolding_all exact h

/-- C3 counterexample: in the diamond graph `c = a + b`, `d = c + a` with
`a.data = 1`, `b.data = 2`, node `a` is reachable from the root `d`, a single
backward pass gives `a.grad = 2`, but a second backward pass without
`zero_grad` gives `a.grad = 5`, not the doubled value `4`; the root itself
ends at `1`, not `2`.  So the claim fails as stated. -/
theorem C3_counterexample :
    fanoutGraph 1 2 = (fanoutSt 1 2, 3) ∧
    Reachable (fanoutSt 1 2) 3 0 ∧
    ((Variable.backward (fanoutSt 1 2) 3).get 0).grad = 2 ∧
    ((Variable.backward (Variable.backward (fanoutSt 1 2) 3) 3).get 0).grad = 5 ∧
    ¬ (((Variable.backward (Variable.backward (fanoutSt 1 2) 3) 3).get 0).grad
        = 2 * ((Variable.backward (fanoutSt 1 2) 3).get 0).grad) ∧
    ((Variable.backward (Variable.backward (fanoutSt 1 2) 3) 3).get 3).grad = 1 := by
  refine ⟨rfl, Reachable.step Reachable.refl ?_, ?_, ?_, ?_, ?_⟩
  · show (0 : NodeId) ∈ ((fanoutSt 1 2).get 3).prev
    with_unfolding_all decide
  · with_unfolding_all rfl
  · with_unfolding_all rfl
  · with_unfolding_all decide
  · with_unfolding_all rfl

/-- C3 amended: calling `backward` twice without an intervening `zero_grad`
accumulates rather than resets, but does not double every reachable node:
the root's gradient is overwritten back to 1 by the re-seeding, and residual
gradients on interior nodes are themselves re-propagated, so nodes below the
first level gain more than a factor of two (see the counterexample).  Exact
doubling holds for the non-root nodes of a one-level graph: for `c = a * b`
with leaf parents, the second pass leaves `a` and `b` with exactly twice
their single-pass gradients while `c` holds 1. -/
theorem mul_backward_eq (da db ga gb gc : ℚ) :
    Variable.backward (mulSt da db ga gb gc) 2
      = mulSt da db (ga + 1 * db) (gb + 1 * da) 1 := by
  with_unfolding_all rfl

theorem C3_accumulation_amended (da db : ℚ) :
    ((Variable.backward (Variable.backward (mulSt da db 0 0 0) 2) 2).get 0).grad
      = 2 * ((Variable.backward (mulSt da db 0 0 0) 2).get 0).grad ∧
    ((Variable.backward (Variable.backward (mulSt da db 0 0 0) 2) 2).get 1).grad
      = 2 * ((Variable.backward (mulSt da db 0 0 0) 2).get 1).grad ∧
    ((Variable.backward (Variable.backward (mulSt da db 0 0 0) 2) 2).get 2).grad = 1 ∧
    ((Variable.backward (mulSt da db 0 0 0) 2).get 2).grad = 1 := by
  rw [mul_backward_eq, mul_backward_eq]
  refine ⟨?_, ?_, rfl, rfl⟩
  · show (0 : ℚ) + 1 * db + 1 * db = 2 * (0 + 1 * db)
    ring
  · show (0 : ℚ) + 1 * da + 1 * da = 2 * (0 + 1 * da)
    ring

/-- C10: when `__add__`, `__sub__` or `__mul__` receives a raw scalar as its
second operand, the scalar is lifted into a fresh leaf node (value the
scalar, gradient 0, no parents, no-op backward rule) and then exactly one
output node is created on top of it; an operand that is already a node
passes through `lift` unchanged and only the one output node is created.
In both cases every pre-existing node — in particular both inputs — is left
entirely unmutated (gradients untouched until the backward pass). -/
theorem C10_operand_lifting :
    (∀ (st : State) (a : NodeId) (x : ℚ), a < st.size →
      lift st (.scalar x) = (st.pushNode ⟨x, toString x, 0, "", [], BackRule.none⟩, st.size) ∧
      (Variable.add st a (.scalar x)).1.size = st.size + 2 ∧
      (Variable.add st a (.scalar x)).1.get st.size
        = ⟨x, toString x, 0, "", [], BackRule.none⟩ ∧
      (Variable.add st a (.scalar x)).2 = st.size + 1 ∧
      (Variable.add st a (.scalar x)).1.get (st.size + 1)
        = ⟨(st.get a).data + x, "", 0, "+", [a, st.size],
            BackRule.add a st.size (st.size + 1)⟩ ∧
      (∀ j, j < st.size → (Variable.add st a (.scalar x)).1.get j = st.get j) ∧
      (Variable.sub st a (.scalar x)).1.size = st.size + 2 ∧
      (Variable.sub st a (.scalar x)).1.get st.size
        = ⟨x, toString x, 0, "", [], BackRule.none⟩ ∧
      (Variable.sub st a (.scalar x)).1.get (st.size + 1)
        = ⟨(st.get a).data - x, (st.get a).label, 0, "-", [a, st.size],
            BackRule.sub a st.size (st.size + 1)⟩ ∧
      (∀ j, j < st.size → (Variable.sub st a (.scalar x)).1.get j = st.get j) ∧
      (Variable.mul st a (.scalar x)).1.size = st.size + 2 ∧
      (Variable.mul st a (.scalar x)).1.get st.size
        = ⟨x, toString x, 0, "", [], BackRule.none⟩ ∧
      (Variable.mul st a (.scalar x)).1.get (st.size + 1)
        = ⟨(st.get a).data * x, (st.get a).label, 0, "*", [a, st.size],
            BackRule.mul a st.size (st.size + 1)⟩ ∧
      (∀ j, j < st.size → (Variable.mul st a (.scalar x)).1.get j = st.get j)) ∧
    (∀ (st : State) (a b : NodeId), a < st.size → b < st.size →
      lift st (.node b) = (st, b) ∧
      (Variable.add st a (.node b)).1.size = st.size + 1 ∧
      (Variable.add st a (.node b)).2 = st.size ∧
      (Variable.add st a (.node b)).1.get st.size
        = ⟨(st.get a).data + (st.get b).data, "", 0, "+", [a, b],
            BackRule.add a b st.size⟩ ∧
      (∀ j, j < st.size → (Variable.add st a (.node b)).1.get j = st.get j) ∧
      (∀ j, j < st.size → (Variable.sub st a (.node b)).1.get j = st.get j) ∧
      (∀ j, j < st.size → (Variable.mul st a (.node b)).1.get j = st.get j)) := by
  constructor
  · intro st a x ha
    have hlt1 : st.size < (st.pushNode ⟨x, toString x, 0, "", [], BackRule.none⟩).size := by
      rw [size_push]; omega
    have hjlt : ∀ j, j < st.size →
        j < (st.pushNode ⟨x, toString x, 0, "", [], BackRule.none⟩).size := by
      intro j hj; rw [size_push]; omega
    have hsz : st.size + 1
        = (st.pushNode ⟨x, toString x, 0, "", [], BackRule.none⟩).size :=
      (size_push _ _).symm
    refine ⟨rfl, ?_, ?_, ?_, ?_, fun j hj => ?_, ?_, ?_, ?_, fun j hj => ?_,
      ?_, ?_, ?_, fun j hj => ?_⟩
    · simp only [Variable.add, lift, Variable.init, size_push]
    · simp only [Variable.add, lift, Variable.init]
      rw [get_push_lt _ _ _ hlt1, get_push_self]
    · simp only [Variable.add, lift, Variable.init, size_push]
    · simp only [Variable.add, lift, Variable.init]
      rw [hsz, get_push_self, get_push_lt _ _ _ ha, get_push_self]
    · simp only [Variable.add, lift, Variable.init]
      rw [get_push_lt _ _ _ (hjlt j hj), get_push_lt _ _ _ hj]
    · simp only [Variable.sub, lift, Variable.init, size_push]
    · simp only [Variable.sub, lift, Variable.init]
      rw [get_push_lt _ _ _ hlt1, get_push_self]
    · simp only [Variable.sub, lift, Variable.init]
      rw [hsz, get_push_self, get_push_lt _ _ _ ha, get_push_self]
    · simp only [Variable.sub, lift, Variable.init]
      rw [get_push_lt _ _ _ (hjlt j hj), get_push_lt _ _ _ hj]
    · simp only [Variable.mul, lift, Variable.init, size_push]
    · simp only [Variable.mul, lift, Variable.init]
      rw [get_push_lt _ _ _ hlt1, get_push_self]
    · simp only [Variable.mul, lift, Variable.init]
      rw [hsz, get_push_self, get_push_lt _ _ _ ha, get_push_self]
    · simp only [Variable.mul, lift, Variable.init]
      rw [get_push_lt _ _ _ (hjlt j hj), get_push_lt _ _ _ hj]
  · intro st a b ha hb
    refine ⟨rfl, ?_, rfl, ?_, fun j hj => ?_, fun j hj => ?_, fun j hj => ?_⟩
    · simp only [Variable.add, lift, size_push]
    · simp only [Variable.add, lift]
      rw [get_push_self]
    · simp only [Variable.add, lift]
      rw [get_push_lt _ _ _ hj]
    · simp only [Variable.sub, lift]
      rw [get_push_lt _ _ _ hj]
    · simp only [Variable.mul, lift]
      rw [get_push_lt _ _ _ hj]

/-! Correctness of the depth-first topological sort. -/

theorem Reachable.trans_of {st : State} {root u x : NodeId}
    (h1 : Reachable st root u) (h2 : Reachable st u x) : Reachable st root x := by
  induction h2 with
  | refl => exact h1
  | step _ hp ih => exact Reachable.step ih hp

theorem Reachable.of_parent {st : State} {v c : NodeId}
    (hc : c ∈ (st.get v).prev) : Reachable st v c :=
  Reachable.step Reachable.refl hc

/-- Main invariant theorem for `build_topo`: one complete call on an
unexhausted fuel budget preserves the `TopoGood` bundle and enters `v`. -/
theorem build_topo_spec (st : State) (hwf : WF st) :
    ∀ fuel v P ts, v < st.size → v < fuel → (∀ u ∈ P, v < u) →
      TopoGood st P ts → TopoStep st v P ts (build_topo st fuel v ts) := by
  intro fuel
  induction fuel with
  | zero => intro v P ts _ hfuel; exact absurd hfuel (Nat.not_lt_zero v)
  | succ f ih =>
    have fold : ∀ (P' : List NodeId) (l : List NodeId),
        (∀ c ∈ l, c < st.size ∧ c < f ∧ (∀ u ∈ P', c < u)) →
        ∀ ts0, TopoGood st P' ts0 →
          TopoFold st l P' ts0 (l.foldl (fun acc c => build_topo st f c acc) ts0) := by
      intro P' l
      induction l with
      | nil =>
        intro _ ts0 hg
        exact ⟨hg, fun x hx => hx, ⟨[], by simp⟩, by simp, fun x hx => Or.inl hx,
          fun x hx => Or.inl hx⟩
      | cons c cs ihl =>
        intro hcs ts0 hg
        obtain ⟨hc1, hc2, hc3⟩ := hcs c (List.mem_cons_self c cs)
        have step := ih c P' ts0 hc1 hc2 hc3 hg
        have rest := ihl (fun x hx => hcs x (List.mem_cons_of_mem c hx))
          (build_topo st f c ts0) step.good
        rw [List.foldl_cons]
        refine ⟨rest.good, ?_, ?_, ?_, ?_, ?_⟩
        · exact fun x hx => rest.mono x (step.mono x hx)
        · obtain ⟨d1, h1⟩ := step.ext
          obtain ⟨d2, h2⟩ := rest.ext
          exact ⟨d1 ++ d2, by rw [h2, h1, List.append_assoc]⟩
        · intro x hx
          rcases List.mem_cons.mp hx with h | h
          · exact h ▸ rest.mono c step.entered
          · exact rest.entered x h
        · intro x hx
          rcases rest.fresh x hx with h | h
          · rcases step.fresh x h with h' | h'
            · exact Or.inl h'
            · exact Or.inr h'
          · exact Or.inr (fun hx0 => h (step.mono x hx0))
        · intro x hx
          rcases rest.sound x hx with h | h
          · rcases step.sound x h with h' | h'
            · exact Or.inl h'
            · exact Or.inr ⟨c, List.mem_cons_self c cs, h'⟩
          · obtain ⟨c', hc', hr⟩ := h
            exact Or.inr ⟨c', List.mem_cons_of_mem c hc', hr⟩
    intro v P ts hv hvf hP hg
    by_cases hvis : v ∈ ts.visited
    · have heq : build_topo st (f + 1) v ts = ts := by
        simp [build_topo, hvis]
      rw [heq]
      exact ⟨hg, fun x hx => hx, ⟨[], by simp⟩, hvis, fun x hx => Or.inl hx,
        fun x hx => Or.inl hx⟩
    · have hvnt : v ∉ ts.topo := fun h => hvis ((hg.inv v).mpr (Or.inl h))
      have hg1 : TopoGood st (v :: P) ⟨v :: ts.visited, ts.topo⟩ := by
        refine ⟨?_, hg.nodup, hg.closed, hg.sorted, hg.bounded⟩
        intro x
        constructor
        · intro hx
          rcases List.mem_cons.mp hx with h | h
          · exact Or.inr (h ▸ List.mem_cons_self v P)
          · rcases (hg.inv x).mp h with h' | h'
            · exact Or.inl h'
            · exact Or.inr (List.mem_cons_of_mem v h')
        · intro hx
          rcases hx with h | h
          · exact List.mem_cons_of_mem v ((hg.inv x).mpr (Or.inl h))
          · rcases List.mem_cons.mp h with h' | h'
            · exact h' ▸ List.mem_cons_self v ts.visited
            · exact List.mem_cons_of_mem v ((hg.inv x).mpr (Or.inr h'))
      have hl : ∀ c ∈ (st.get v).prev, c < st.size ∧ c < f ∧
          (∀ u ∈ v :: P, c < u) := by
        intro c hc
        have hcv : c < v := hwf v hv c hc
        refine ⟨Nat.lt_trans hcv hv, Nat.lt_of_lt_of_le hcv (Nat.lt_succ_iff.mp hvf), ?_⟩
        intro u hu
        rcases List.mem_cons.mp hu with h | h
        · exact h ▸ hcv
        · exact Nat.lt_trans hcv (hP u h)
      have F := fold (v :: P) ((st.get v).prev) hl ⟨v :: ts.visited, ts.topo⟩ hg1
      set ts2 := ((st.get v).prev).foldl (fun acc c => build_topo st f c acc)
        ⟨v :: ts.visited, ts.topo⟩ with hts2
      have heq : build_topo st (f + 1) v ts = ⟨ts2.visited, ts2.topo ++ [v]⟩ := by
        simp [build_topo, hvis]
      have hvents2 : v ∈ ts2.visited :=
        F.mono v (List.mem_cons_self v ts.visited)
      have hvnt2 : v ∉ ts2.topo := by
        intro h
        rcases F.fresh v h with h' | h'
        · exact hvnt h'
        · exact h' (List.mem_cons_self v ts.visited)
      have hpar : ∀ p ∈ (st.get v).prev, p ∈ ts2.topo := by
        intro p hp
        have hpv : p < v := hwf v hv p hp
        rcases (F.good.inv p).mp (F.entered p hp) with h | h
        · exact h
        · rcases List.mem_cons.mp h with h' | h'
          · exact absurd (h' ▸ hpv) (lt_irrefl v)
          · exact absurd (Nat.lt_trans hpv (hP p h')) (lt_irrefl p)
      rw [heq]
      refine ⟨⟨?_, ?_, ?_, ?_, ?_⟩, ?_, ?_, hvents2, ?_, ?_⟩
      · intro x
        have base := F.good.inv x
        constructor
        · intro hx
          rcases (base.mp hx) with h | h
          · exact Or.inl (List.mem_append.mpr (Or.inl h))
          · rcases List.mem_cons.mp h with h' | h'
            · exact Or.inl (List.mem_append.mpr (Or.inr (h' ▸ List.mem_singleton_self v)))
            · exact Or.inr h'
        · intro hx
          rcases hx with h | h
          · rcases List.mem_append.mp h with h' | h'
            · exact base.mpr (Or.inl h')
            · have : x = v := List.mem_singleton.mp h'
              exact this ▸ hvents2
          · exact base.mpr (Or.inr (List.mem_cons_of_mem v h))
      · refine F.good.nodup.append (List.nodup_singleton v) ?_
        intro a ha hav
        exact hvnt2 ((List.mem_singleton.mp hav) ▸ ha)
      · intro x hx p hp
        rcases List.mem_append.mp hx with h | h
        · exact List.mem_append.mpr (Or.inl (F.good.closed x h p hp))
        · have hxv : x = v := List.mem_singleton.mp h
          exact List.mem_append.mpr (Or.inl (hpar p (hxv ▸ hp)))
      · refine List.pairwise_append.mpr ⟨F.good.sorted, List.pairwise_singleton _ v, ?_⟩
        intro a ha b hb hba
        have hbv : b = v := List.mem_singleton.mp hb
        exact hvnt2 (hbv ▸ F.good.closed a ha b hba)
      · intro x hx
        rcases List.mem_append.mp hx with h | h
        · exact F.good.bounded x h
        · exact (List.mem_singleton.mp h) ▸ hv
      · exact fun x hx => F.mono x (List.mem_cons_of_mem v hx)
      · obtain ⟨d, hd⟩ := F.ext
        exact ⟨d ++ [v], by rw [← List.append_assoc, ← hd]⟩
      · intro x hx
        rcases List.mem_append.mp hx with h | h
        · rcases F.fresh x h with h' | h'
          · exact Or.inl h'
          · exact Or.inr (fun hx0 => h' (List.mem_cons_of_mem v hx0))
        · exact Or.inr ((List.mem_singleton.mp h) ▸ hvis)
      · intro x hx
        rcases List.mem_append.mp hx with h | h
        · rcases F.sound x h with h' | h'
          · exact Or.inl h'
          · obtain ⟨c, hc, hr⟩ := h'
            exact Or.inr (Reachable.trans_of (Reachable.of_parent hc) hr)
        · exact Or.inr ((List.mem_singleton.mp h) ▸ Reachable.refl)

/-- The top-level `build_topo(self)` call of `Variable.backward` satisfies
the full invariant bundle (both mutable locals start empty, no pending
path). -/
theorem topoOf_spec (st : State) (hwf : WF st) (root : NodeId)
    (hr : root < st.size) :
    TopoStep st root [] ⟨[], []⟩ (build_topo st st.size root ⟨[], []⟩) :=
  build_topo_spec st hwf st.size root [] ⟨[], []⟩ hr hr (by simp)
    ⟨by simp, List.nodup_nil, by simp, List.Pairwise.nil, by simp⟩

theorem mem_topoOf_iff (st : State) (hwf : WF st) (root : NodeId)
    (hr : root < st.size) :
    ∀ x, x ∈ topoOf st root ↔ Reachable st root x := by
  have S := topoOf_spec st hwf root hr
  have hroot : root ∈ topoOf st root := by
    rcases (S.good.inv root).mp S.entered with h | h
    · exact h
    · simp at h
  intro x
  constructor
  · intro hx
    rcases S.sound x hx with h | h
    · simp at h
    · exact h
  · intro hx
    induction hx with
    | refl => exact hroot
    | step _ hp ih => exact S.good.closed _ ih _ hp

theorem topoOf_nodup (st : State) (hwf : WF st) (root : NodeId)
    (hr : root < st.size) : (topoOf st root).Nodup :=
  (topoOf_spec st hwf root hr).good.nodup

theorem topoOf_concat (st : State) (root : NodeId) (hr : root < st.size) :
    ∃ l, topoOf st root = l ++ [root] := by
  obtain ⟨k, hk⟩ : ∃ k, st.size = k + 1 :=
    ⟨st.size - 1, (Nat.sub_add_cancel (Nat.lt_of_le_of_lt (Nat.zero_le root) hr)).symm⟩
  unfold topoOf
  rw [hk]
  simp only [build_topo, List.not_mem_nil, if_neg, if_false]
  exact ⟨_, rfl⟩

theorem topoOf_parents_before (st : State) (hwf : WF st) (root : NodeId)
    (hr : root < st.size) :
    ∀ l1 x l2, topoOf st root = l1 ++ x :: l2 →
      ∀ p ∈ (st.get x).prev, p ∈ l1 := by
  have S := topoOf_spec st hwf root hr
  intro l1 x l2 hsplit p hp
  have hx : x ∈ topoOf st root := by
    rw [hsplit]; exact List.mem_append.mpr (Or.inr (List.mem_cons_self x l2))
  have hptopo : p ∈ topoOf st root := S.good.closed x hx p hp
  have hxlt : x < st.size := S.good.bounded x hx
  have hpx : p < x := hwf x hxlt p hp
  have hsort : (topoOf st root).Pairwise (fun a b => b ∉ (st.get a).prev) :=
    S.good.sorted
  rw [hsplit] at hsort hptopo
  obtain ⟨_, hpw2, _⟩ := List.pairwise_append.mp hsort
  obtain ⟨hhead, _⟩ := List.pairwise_cons.mp hpw2
  rcases List.mem_append.mp hptopo with h | h
  · exact h
  · rcases List.mem_cons.mp h with h' | h'
    · exact absurd (h' ▸ hpx) (lt_irrefl x)
    · exact absurd hp (hhead p h')

theorem topoOf_head_leaf (st : State) (hwf : WF st) (root : NodeId)
    (hr : root < st.size) :
    ∀ h, (topoOf st root).head? = some h → (st.get h).prev = [] := by
  intro h hh
  cases htopo : topoOf st root with
  | nil => rw [htopo] at hh; simp at hh
  | cons h0 rest =>
    rw [htopo] at hh
    simp only [List.head?_cons, Option.some.injEq] at hh
    subst hh
    apply List.eq_nil_iff_forall_not_mem.mpr
    intro p hp
    have := topoOf_parents_before st hwf root hr [] h0 rest (by rw [htopo]; rfl) p hp
    simp at this

/-- C2: the topological order built by `Variable.backward` contains exactly
the nodes reachable from the root via `_prev` references; every node appears
strictly after all of its parents; the first element is a leaf (no parents)
and the last is the root; and because the visited set is keyed on node
identity (arena index), two distinct reachable nodes carrying equal `data`
values are nonetheless both emitted. -/
theorem C2_topological_order (st : State) (root : NodeId) (hwf : WF st)
    (hr : root < st.size) :
    (∀ x, x ∈ topoOf st root ↔ Reachable st root x) ∧
    (∀ l1 x l2, topoOf st root = l1 ++ x :: l2 →
      ∀ p ∈ (st.get x).prev, p ∈ l1) ∧
    (∀ h, (topoOf st root).head? = some h → (st.get h).prev = []) ∧
    ((topoOf st root).getLast? = some root) ∧
    (∀ i j, i ≠ j → Reachable st root i → Reachable st root j →
      (st.get i).data = (st.get j).data →
      i ∈ topoOf st root ∧ j ∈ topoOf st root) := by
  refine ⟨mem_topoOf_iff st hwf root hr, topoOf_parents_before st hwf root hr,
    topoOf_head_leaf st hwf root hr, ?_, ?_⟩
  · obtain ⟨l, hl⟩ := topoOf_concat st root hr
    rw [hl]
    exact List.getLast?_concat l
  · intro i j _ hi hj _
    exact ⟨(mem_topoOf_iff st hwf root hr i).mpr hi,
      (mem_topoOf_iff st hwf root hr j).mpr hj⟩

/-- C2 witness: the theorem applied to the concrete diamond arena
`c = a + b`, `d = c + a` with root `d = 3`. -/
theorem C2_topological_order_witness :
    WF (fanoutSt 1 2) ∧ 3 < (fanoutSt 1 2).size ∧
    ((topoOf (fanoutSt 1 2) 3).getLast? = some 3) :=
  ⟨by decide, by decide,
    (C2_topological_order (fanoutSt 1 2) 3 (by decide) (by decide)).2.2.2.1⟩

/-- C1: during a single `backward(root)` call on a well-formed arena, every
node reachable from the root appears exactly once in the computed
topological order (diamond sharing included — reachability along several
paths still gives count one), and the driver, which invokes the stored
backward rule of each entry of the reversed order in sequence, therefore
invokes every reachable node's rule exactly once and no other rule at
all. -/
theorem C1_each_rule_once (st : State) (root : NodeId) (hwf : WF st)
    (hr : root < st.size) :
    (Variable.backward st root
      = applyRules (st.setGrad root 1) (topoOf st root).reverse) ∧
    (∀ v, Reachable st root v →
      ((topoOf st root).count v = 1 ∧ (topoOf st root).reverse.count v = 1)) ∧
    (∀ v, ¬ Reachable st root v →
      ((topoOf st root).count v = 0 ∧ (topoOf st root).reverse.count v = 0)) := by
  refine ⟨rfl, ?_, ?_⟩
  · intro v hv
    have hm : v ∈ topoOf st root := (mem_topoOf_iff st hwf root hr v).mpr hv
    have h1 : (topoOf st root).count v = 1 :=
      List.count_eq_one_of_mem (topoOf_nodup st hwf root hr) hm
    exact ⟨h1, by rw [List.count_reverse]; exact h1⟩
  · intro v hv
    have hm : v ∉ topoOf st root :=
      fun h => hv ((mem_topoOf_iff st hwf root hr v).mp h)
    have h0 : (topoOf st root).count v = 0 := List.count_eq_zero_of_not_mem hm
    exact ⟨h0, by rw [List.count_reverse]; exact h0⟩

/-- C1 witness: the theorem applied to the diamond arena; the shared node
`c = 2` (reachable from the root along two paths) has count exactly one in
the order the driver walks. -/
theorem C1_each_rule_once_witness :
    WF (fanoutSt 1 2) ∧ 3 < (fanoutSt 1 2).size ∧
    Reachable (fanoutSt 1 2) 3 2 ∧
    (topoOf (fanoutSt 1 2) 3).reverse.count 2 = 1 :=
  ⟨by decide, by decide,
    Reachable.of_parent (by decide),
    ((C1_each_rule_once (fanoutSt 1 2) 3 (by decide) (by decide)).2.1 2
      (Reachable.of_parent (by decide))).2⟩

/-! Frame lemmas: which parts of the arena the backward pass can touch. -/

theorem size_setNode (st : State) (i : NodeId) (n : Variable) :
    (st.setNode i n).size = st.size := by
  simp [State.setNode, State.size]

theorem get_setNode_ne (st : State) (i : NodeId) (n : Variable) (j : NodeId)
    (h : j ≠ i) : (st.setNode i n).get j = st.get j := by
  simp [State.setNode, State.get, List.getD_eq_getElem?_getD,
    List.getElem?_set_ne (fun he => h he.symm)]

theorem get_setNode_self (st : State) (i : NodeId) (n : Variable)
    (h : i < st.size) : (st.setNode i n).get i = n := by
  have h' : i < st.nodes.length := h
  simp [State.setNode, State.get, List.getD_eq_getElem?_getD,
    List.getElem?_set_self, h']

theorem get_addGrad_ne (s : State) (i : NodeId) (g : ℚ) (v : NodeId)
    (h : v ≠ i) : (s.addGrad i g).get v = s.get v :=
  get_setNode_ne s i _ v h

theorem sameShape_refl (s : State) : sameShape s s :=
  ⟨rfl, fun _ => ⟨rfl, rfl, rfl, rfl, rfl⟩⟩

theorem sameShape_trans {s t u : State} (h1 : sameShape s t)
    (h2 : sameShape t u) : sameShape s u := by
  obtain ⟨hs1, hf1⟩ := h1
  obtain ⟨hs2, hf2⟩ := h2
  refine ⟨hs1.trans hs2, fun j => ?_⟩
  obtain ⟨a1, b1, c1, d1, e1⟩ := hf1 j
  obtain ⟨a2, b2, c2, d2, e2⟩ := hf2 j
  exact ⟨a1.trans a2, b1.trans b2, c1.trans c2, d1.trans d2, e1.trans e2⟩

theorem sameShape_setGrad (st : State) (i : NodeId) (g : ℚ) :
    sameShape (st.setGrad i g) st := by
  refine ⟨size_setNode st i _, fun j => ?_⟩
  by_cases hij : j = i
  · subst hij
    by_cases hlt : j < st.size
    · rw [show (st.setGrad j g).get j = { st.get j with grad := g } from
        get_setNode_self st j _ hlt]
      exact ⟨rfl, rfl, rfl, rfl, rfl⟩
    · have hno : st.setGrad j g = st := by
        show State.mk (st.nodes.set j _) = st
        rw [List.set_eq_of_length_le (Nat.le_of_not_lt hlt)]
      rw [hno]
      exact ⟨rfl, rfl, rfl, rfl, rfl⟩
  · have hg : (st.setGrad i g).get j = st.get j := get_setNode_ne st i _ j hij
    rw [hg]
    exact ⟨rfl, rfl, rfl, rfl, rfl⟩

theorem sameShape_addGrad (st : State) (i : NodeId) (g : ℚ) :
    sameShape (st.addGrad i g) st :=
  sameShape_setGrad st i _

theorem sameShape_runBackward (st : State) (r : BackRule) :
    sameShape (runBackward st r) st := by
  cases r with
  | none => exact sameShape_refl st
  | add s o out =>
      exact sameShape_trans (sameShape_addGrad _ o _) (sameShape_addGrad st s _)
  | sub s o out =>
      exact sameShape_trans (sameShape_addGrad _ o _) (sameShape_addGrad st s _)
  | mul s o out =>
      exact sameShape_trans (sameShape_addGrad _ o _) (sameShape_addGrad st s _)
  | pow s e out => exact sameShape_addGrad st s _
  | relu s out =>
      simp only [runBackward]
      split
      · exact sameShape_addGrad st s _
      · exact sameShape_addGrad st s _

theorem sameShape_applyRules (l : List NodeId) :
    ∀ st : State, sameShape (applyRules st l) st := by
  induction l with
  | nil => intro st; exact sameShape_refl st
  | cons c cs ih =>
      intro st
      exact sameShape_trans (ih (runBackward st ((st.get c).backward_rule)))
        (sameShape_runBackward st _)

theorem sameShape_backward (st : State) (root : NodeId) :
    sameShape (Variable.backward st root) st :=
  sameShape_trans (sameShape_applyRules _ _) (sameShape_setGrad st root 1)

theorem setGrad_setGrad (st : State) (i : NodeId) (g g' : ℚ) :
    (st.setGrad i g).setGrad i g' = st.setGrad i g' := by
  have hnode : ({ (st.setGrad i g).get i with grad := g' } : Variable)
      = { st.get i with grad := g' } := by
    obtain ⟨h1, h2, h3, h4, h5⟩ := (sameShape_setGrad st i g).2 i
    show Variable.mk ((st.setGrad i g).get i).data ((st.setGrad i g).get i).label
        g' ((st.setGrad i g).get i).op ((st.setGrad i g).get i).prev
        ((st.setGrad i g).get i).backward_rule
      = Variable.mk (st.get i).data (st.get i).label g' (st.get i).op
        (st.get i).prev (st.get i).backward_rule
    rw [h1, h2, h3, h4, h5]
  have hset : (st.setGrad i g).setNode i ({ st.get i with grad := g' })
      = st.setNode i ({ st.get i with grad := g' }) := by
    show State.mk ((st.nodes.set i _).set i _) = State.mk (st.nodes.set i _)
    rw [List.set_set]
  calc (st.setGrad i g).setGrad i g'
      = (st.setGrad i g).setNode i { (st.setGrad i g).get i with grad := g' } := rfl
    _ = (st.setGrad i g).setNode i { st.get i with grad := g' } := by rw [hnode]
    _ = st.setNode i { st.get i with grad := g' } := hset
    _ = st.setGrad i g' := rfl

/-- `build_topo` reads only the `_prev` references of the arena. -/
theorem build_topo_congr (s t : State)
    (hprev : ∀ v, (s.get v).prev = (t.get v).prev) :
    ∀ fuel v ts, build_topo s fuel v ts = build_topo t fuel v ts := by
  intro fuel
  induction fuel with
  | zero => intro v ts; rfl
  | succ f ih =>
      intro v ts
      simp only [build_topo]
      by_cases h : v ∈ ts.visited
      · simp [h]
      · have hfun : (fun acc c => build_topo s f c acc)
            = (fun acc c => build_topo t f c acc) :=
          funext fun acc => funext fun c => ih c acc
        simp only [h, if_false, hprev v, hfun]

/-- Seeding `root.grad` before the call is invisible: `backward` overwrites
it (reads only `_prev` to build the order, then writes the seed 1). -/
theorem backward_setGrad_indep (st : State) (root : NodeId) (g0 : ℚ) :
    Variable.backward (st.setGrad root g0) root = Variable.backward st root := by
  have hprev : ∀ v, (((st.setGrad root g0)).get v).prev = (st.get v).prev :=
    fun v => ((sameShape_setGrad st root g0).2 v).2.2.2.1
  have hsz : (st.setGrad root g0).size = st.size := size_setNode st root _
  have htopo : topoOf (st.setGrad root g0) root = topoOf st root := by
    unfold topoOf
    rw [hsz, build_topo_congr (st.setGrad root g0) st hprev st.size root ⟨[], []⟩]
  unfold Variable.backward
  rw [htopo, setGrad_setGrad]

/-- The driver leaves every node untouched whose gradient no invoked rule
writes: nodes not reachable from any rule's owner. -/
theorem applyRules_frame (st : State) (root : NodeId)
    (hrul : RulesWF st) :
    ∀ (l : List NodeId) (s : State) (v : NodeId),
      (∀ j, (s.get j).prev = (st.get j).prev ∧
            (s.get j).backward_rule = (st.get j).backward_rule) →
      (∀ x ∈ l, Reachable st root x ∧ x < st.size) →
      ¬ Reachable st root v →
      (applyRules s l).get v = s.get v := by
  intro l
  induction l with
  | nil => intro s v _ _ _; rfl
  | cons c cs ih =>
      intro s v hsh hl hv
      obtain ⟨hcr, hcb⟩ := hl c (List.mem_cons_self c cs)
      have hstep : applyRules s (c :: cs)
          = applyRules (runBackward s ((s.get c).backward_rule)) cs := rfl
      have hsh1 : ∀ j,
          ((runBackward s ((s.get c).backward_rule)).get j).prev = (st.get j).prev ∧
          ((runBackward s ((s.get c).backward_rule)).get j).backward_rule
            = (st.get j).backward_rule := by
        intro j
        obtain ⟨_, _, _, hp, hb⟩ :=
          (sameShape_runBackward s ((s.get c).backward_rule)).2 j
        exact ⟨hp.trans (hsh j).1, hb.trans (hsh j).2⟩
      rw [hstep, ih (runBackward s ((s.get c).backward_rule)) v hsh1
        (fun x hx => hl x (List.mem_cons_of_mem c hx)) hv]
      have hok : rule_okb (st.get c) = true := hrul c hcb
      rw [(hsh c).2]
      cases hr : (st.get c).backward_rule with
      | none => rfl
      | add a b out =>
          rw [rule_okb, hr] at hok
          simp only [Bool.and_eq_true, decide_eq_true_eq] at hok
          have hva : v ≠ a := fun he => hv (he ▸ Reachable.step hcr hok.1)
          have hvb : v ≠ b := fun he => hv (he ▸ Reachable.step hcr hok.2)
          simp only [runBackward]
          rw [get_addGrad_ne _ b _ v hvb, get_addGrad_ne _ a _ v hva]
      | sub a b out =>
          rw [rule_okb, hr] at hok
          simp only [Bool.and_eq_true, decide_eq_true_eq] at hok
          have hva : v ≠ a := fun he => hv (he ▸ Reachable.step hcr hok.1)
          have hvb : v ≠ b := fun he => hv (he ▸ Reachable.step hcr hok.2)
          simp only [runBackward]
          rw [get_addGrad_ne _ b _ v hvb, get_addGrad_ne _ a _ v hva]
      | mul a b out =>
          rw [rule_okb, hr] at hok
          simp only [Bool.and_eq_true, decide_eq_true_eq] at hok
          have hva : v ≠ a := fun he => hv (he ▸ Reachable.step hcr hok.1)
          have hvb : v ≠ b := fun he => hv (he ▸ Reachable.step hcr hok.2)
          simp only [runBackward]
          rw [get_addGrad_ne _ b _ v hvb, get_addGrad_ne _ a _ v hva]
      | pow a e out =>
          rw [rule_okb, hr] at hok
          simp only [decide_eq_true_eq] at hok
          have hva : v ≠ a := fun he => hv (he ▸ Reachable.step hcr hok)
          simp only [runBackward]
          rw [get_addGrad_ne _ a _ v hva]
      | relu a out =>
          rw [rule_okb, hr] at hok
          simp only [decide_eq_true_eq] at hok
          have hva : v ≠ a := fun he => hv (he ▸ Reachable.step hcr hok)
          simp only [runBackward]
          split
          · rw [get_addGrad_ne _ a _ v hva]
          · rw [get_addGrad_ne _ a _ v hva]

/-- C9: `backward(root)` overwrites the root's gradient to 1 regardless of
the value it held before (the result does not depend on the root's prior
gradient), the driver is exactly the fold of the stored rules over the
reversed topological order seeded with `root.grad = 1`, and the only effect
is on gradient fields of reachable nodes: the arena keeps its size and every
node keeps its `data`, `label`, `_op`, `_prev` and rule, while a node not
reachable from the root is left entirely unchanged, gradient included. -/
theorem C9_backward_frame (st : State) (root : NodeId) (hwf : WF st)
    (hrul : RulesWF st) (hr : root < st.size) :
    (∀ g0 : ℚ, Variable.backward (st.setGrad root g0) root
      = Variable.backward st root) ∧
    (Variable.backward st root
      = applyRules (st.setGrad root 1) (topoOf st root).reverse) ∧
    sameShape (Variable.backward st root) st ∧
    (∀ v, ¬ Reachable st root v →
      (Variable.backward st root).get v = st.get v) := by
  refine ⟨fun g0 => backward_setGrad_indep st root g0, rfl,
    sameShape_backward st root, ?_⟩
  intro v hv
  have hvne : v ≠ root := fun he => hv (he ▸ Reachable.refl)
  have hshape : ∀ j, ((st.setGrad root 1).get j).prev = (st.get j).prev ∧
      ((st.setGrad root 1).get j).backward_rule = (st.get j).backward_rule := by
    intro j
    obtain ⟨_, _, _, hp, hb⟩ := (sameShape_setGrad st root 1).2 j
    exact ⟨hp, hb⟩
  have hmem : ∀ x ∈ (topoOf st root).reverse,
      Reachable st root x ∧ x < st.size := by
    intro x hx
    have hx' : x ∈ topoOf st root := List.mem_reverse.mp hx
    exact ⟨(mem_topoOf_iff st hwf root hr x).mp hx',
      (topoOf_spec st hwf root hr).good.bounded x hx'⟩
  have hframe := applyRules_frame st root hrul (topoOf st root).reverse
    (st.setGrad root 1) v hshape hmem hv
  calc (Variable.backward st root).get v
      = (st.setGrad root 1).get v := hframe
    _ = st.get v := get_setNode_ne st root _ v hvne

/-- C9 witness: on the diamond arena, node id 5 does not exist and is not
reachable from the root 3; `backward` leaves it untouched. -/
theorem C9_backward_frame_witness :
    WF (fanoutSt 1 2) ∧ RulesWF (fanoutSt 1 2) ∧ 3 < (fanoutSt 1 2).size ∧
    ¬ Reachable (fanoutSt 1 2) 3 5 ∧
    (Variable.backward (fanoutSt 1 2) 3).get 5 = (fanoutSt 1 2).get 5 := by
  have hwf : WF (fanoutSt 1 2) := by decide
  have hrul : RulesWF (fanoutSt 1 2) := by decide
  have hr : (3:NodeId) < (fanoutSt 1 2).size := by decide
  have hnr : ¬ Reachable (fanoutSt 1 2) 3 5 := by
    intro hreach
    have hm := (mem_topoOf_iff (fanoutSt 1 2) hwf 3 hr 5).mpr hreach
    have ht : topoOf (fanoutSt 1 2) 3 = [0, 1, 2, 3] := rfl
    rw [ht] at hm
    exact absurd hm (by decide)
  exact ⟨hwf, hrul, hr, hnr,
    (C9_backward_frame (fanoutSt 1 2) 3 hwf hrul hr).2.2.2 5 hnr⟩

/-- C10 witness: instantiating the lifting theorem at the one-node arena with
`a = 0` and scalar `7`. -/
theorem C10_operand_lifting_witness :
    (0 < oneSt.size) ∧
    (Variable.add oneSt 0 (.scalar 7)).1.get oneSt.size
      = ⟨7, toString (7:ℚ), 0, "", [], BackRule.none⟩ ∧
    (∀ j, j < oneSt.size → (Variable.mul oneSt 0 (.node 0)).1.get j = oneSt.get j) :=
  ⟨by decide,
   ((C10_operand_lifting.1 oneSt 0 7 (by decide)).2.2.1),
   ((C10_operand_lifting.2 oneSt 0 0 (by decide) (by decide)).2.2.2.2.2.2)⟩

end Tinynn
